import Mathlib

/-!
Verification of the component/failure normalization and aggregation pipeline of
`src/visualization/data_loader.py` (repository `repair_video_analysis`).

Strings are modelled as Lean `String` / `List Char`.  Python's `str.lower` and
`str.strip` are modelled for the Latin-1 range (`lowerChar`, `trimL`); every
rule-table keyword and every concrete input appearing in the claims is ASCII,
so this restriction is invisible to the properties proved here.  Python's
substring test `kw in text` is modelled by `occursInL`, and
`re.split(r"[,/]| and ", s)` by `splitD`.  pandas data frames are modelled as
lists of records; `groupby`/`value_counts`/`crosstab` follow the documented
pandas semantics (null grouping keys are dropped, `value_counts` drops nulls
and sorts by count descending, `groupby` sorts keys ascending).
-/

/-- Whitespace test used by Python's `str.strip`, restricted to Latin-1
code points (space, tab, LF, CR, VT, FF, the C1 separators, NEL, NBSP). -/
def sp (c : Char) : Bool :=
  decide (c.toNat = 32 ∨ c.toNat = 9 ∨ c.toNat = 10 ∨ c.toNat = 13 ∨ c.toNat = 11 ∨
    c.toNat = 12 ∨ c.toNat = 28 ∨ c.toNat = 29 ∨ c.toNat = 30 ∨ c.toNat = 31 ∨
    c.toNat = 133 ∨ c.toNat = 160)

/-- Python `str.lower` on one character, restricted to ASCII (A-Z ↦ a-z). -/
def lowerChar (c : Char) : Char :=
  if h : 65 ≤ c.toNat ∧ c.toNat ≤ 90 then
    ⟨⟨⟨⟨c.toNat + 32, by omega⟩⟩⟩, Or.inl (show c.toNat + 32 < 55296 by omega)⟩
  else c

/-- Python `s.lower()` over the characters of a string. -/
def lowerL (l : List Char) : List Char := l.map lowerChar

/-- Python `s.strip()`: drop whitespace from both ends. -/
def trimL (l : List Char) : List Char :=
  ((l.dropWhile sp).reverse.dropWhile sp).reverse

/-- String-level version of `trimL` (Python `s.strip()`). -/
def trimStr (s : String) : String := String.mk (trimL s.data)

/-- Does `needle` occur at the very start of `hay`? -/
def leadsWith : List Char → List Char → Bool
  | [], _ => true
  | _ :: _, [] => false
  | a :: as, b :: bs => a == b && leadsWith as bs

/-- Python's substring test `needle in hay` on character lists. -/
def occursInL (needle : List Char) : List Char → Bool
  | [] => leadsWith needle []
  | c :: rest => leadsWith needle (c :: rest) || occursInL needle rest

/-- The ordered component rule table `_COMPONENT_RULES` of
`src/visualization/data_loader.py`, transcribed verbatim. -/
def _COMPONENT_RULES : List (String × List String) :=
  [ ("Motor Brushes",
      ["motor brushes", "brush holder", "brush spring", "motor windings and brushes",
       "motor brushes and", "brushes"]),
    ("Armature", ["armature"]),
    ("Battery", ["battery", "lithium ion cells"]),
    ("Power Cord", ["power cord", "power cable", "power wire", "cable guard"]),
    ("Controller / Circuit Board",
      ["circuit board", "controller", "control board", "speed controller",
       "power supply board", "selector switch board", "rotary encoder",
       "filter capacitor", "internal electronics", "capacitor"]),
    ("Switch", ["switch", "trigger"]),
    ("Motor", ["motor", "field coil", "field connection", "field", "motor/coil"]),
    ("Chuck", ["chuck", "collet", "bit holder"]),
    ("Bearing", ["bearing"]),
    ("Tool Holder",
      ["tool holder", "blade clamp", "blade holder", "blade lock", "blade mounting",
       "blade installation", "sds tool holder"]),
    ("Gearbox / Gears", ["gearbox", "gear", "clutch", "reduction gear"]),
    ("Housing / Case",
      ["housing", "case ", "base/guard", "base adjustment", "plastic cover",
       "rubber cap", "rubber front", "mounting bracket"]),
    ("Anvil", ["anvil"]),
    ("Belt / Drive", ["belt", "drive pin", "drive belt"]),
    ("Piston / Hammer Mechanism",
      ["piston", "hammer mechanism", "impact bolt", "connecting rod"]),
    ("Spring", ["spring", "lifter spring"]),
    ("Nail Gun Mechanism", ["nail", "firing pin", "magazine"]),
    ("Fan", ["fan"]),
    ("Wiring / Connectors", ["wiring", "connectors", "terminals", "cable,"]),
    ("O-Ring / Seal", ["o-ring", "gasket"]) ]

/-- The rule loop of `_match_component`: first rule (in table order) one of
whose keywords is a substring of `t` wins. -/
def findLabel : List (String × List String) → List Char → Option String
  | [], _ => none
  | (label, kws) :: rs, t =>
    if kws.any (fun kw => occursInL kw.data t) then some label else findLabel rs t

/-- `_match_component(text)`: lowercase, strip, then scan the rule table. -/
def _match_component (text : List Char) : Option String :=
  findLabel _COMPONENT_RULES (trimL (lowerL text))

/-- The five-character delimiter literal of the regex `[,/]| and `. -/
def andDelim : List Char := " and ".data

/-- Fuel-indexed worker for `splitD`; the fuel dominates the length of the
character list, so the last clause is never reached when called via `splitD`.
Structural recursion on the fuel keeps the function kernel-reducible. -/
def splitDF : Nat → List Char → List (List Char)
  | _, [] => [[]]
  | fuel + 1, c :: rest =>
    if c == ',' || c == '/' then [] :: splitDF fuel rest
    else if leadsWith andDelim (c :: rest) then [] :: splitDF fuel (rest.drop 4)
    else
      match splitDF fuel rest with
      | [] => [[c]]
      | f :: fs => (c :: f) :: fs
  | 0, l => [l]

/-- Model of `re.split(r"[,/]| and ", s)`: scanning left to right, a `,` or `/`
or the literal `" and "` ends the current fragment. -/
def splitD (l : List Char) : List (List Char) := splitDF l.length l

/-- The fragment loop of `normalize_components`: match each part, collect
distinct labels in first-seen order (`matched` list, `seen` set). -/
def collectMatched : List (List Char) → List String → List String → List String
  | [], matched, _ => matched
  | p :: ps, matched, seen =>
    match _match_component p with
    | some label =>
      if seen.elem label then collectMatched ps matched seen
      else collectMatched ps (matched ++ [label]) (label :: seen)
    | none => collectMatched ps matched seen

/-- `normalize_components(component)` of `src/visualization/data_loader.py`.
`none` models a null / NaN cell (`pd.isna`), the empty string is falsy. -/
def normalize_components (component : Option String) : List String :=
  match component with
  | none => []
  | some s =>
    if s = "" then []
    else
      match _match_component s.data with
      | some full => [full]
      | none =>
        let matched := collectMatched (splitD s.data) [] []
        if matched = [] then [trimStr s] else matched

/-- Economic-infeasibility keywords of `categorize` (transcribed verbatim). -/
def econ_keywords : List String :=
  ["not econom", "uneconom", "not cost effective", "cost effective", "not worth",
   "too expensive", "exceed tool value", "exceed value", "cost more than",
   "costs more than", "cost nearly", "costs nearly", "costs as much", "cost as much",
   "cost equals", "costs equal", "making repair", "not viable"]

/-- Parts-sourcing keywords of `categorize` (transcribed verbatim). -/
def parts_keywords : List String :=
  ["not available", "no replacement", "not in stock", "need to be ordered",
   "needed to be ordered", "no longer available", "obsolete", "could not find",
   "did not have", "wrong size", "did not fit"]

/-- Severe-damage keywords of `categorize` (transcribed verbatim). -/
def damage_keywords : List String :=
  ["burnt", "burned", "burn damage", "melted", "destroyed", "beyond repair",
   "shorted out", "completely failed", "severe", "trauma"]

/-- Electrical / component-failure keywords of `categorize` (transcribed verbatim). -/
def elec_keywords : List String :=
  ["circuit board", "controller", "switch failure", "motor failure", "broken wires",
   "faulty", "cells", "battery", "board fail"]

/-- Python `any(kw in text for kw in kws)` over an already-lowercased text. -/
def anyKw (kws : List String) (text : List Char) : Bool :=
  kws.any (fun kw => occursInL kw.data text)

/-- The inner `categorize(reason)` of `categorize_failure_reasons`
(`src/visualization/data_loader.py`): ordered keyword-group checks over the
lowercased reason, first matching group wins; `none` models `pd.isna`. -/
def categorize (reason : Option String) : String :=
  match reason with
  | none => "Unknown"
  | some reason =>
    let rl := lowerL reason.data
    if anyKw econ_keywords rl then "Not Economical"
    else if occursInL "water".data rl || occursInL "corrosion".data rl ||
        occursInL "acid".data rl || occursInL "rust".data rl then "Water/Corrosion"
    else if anyKw parts_keywords rl then "Parts Unavailable"
    else if anyKw damage_keywords rl then "Severe Damage"
    else if anyKw elec_keywords rl then "Component Failure"
    else "Other"

/-- One row of the record store as consumed by the aggregation functions.
`none` models a null / NaN cell. -/
structure Record where
  brand : Option String
  tool_type : Option String
  successful : Option Bool
  failure_reason : Option String
deriving DecidableEq

/-- Insert `x` into `l` directly before the first element `y` with
`before x y = true`; used to model pandas sorts. -/
def insertBy (before : α → α → Bool) (x : α) : List α → List α
  | [] => [x]
  | y :: ys => if before x y then x :: y :: ys else y :: insertBy before x ys

/-- Stable insertion sort: elements are inserted in input order, each after
every earlier element it is not strictly `before`. -/
def sortBy (before : α → α → Bool) (l : List α) : List α :=
  l.foldl (fun acc x => insertBy before x acc) []

/-- Distinct elements in first-seen order, skipping anything in `seen`;
models the key collection of a pandas hash-based groupby. -/
def dedupFS : List String → List String → List String
  | [], _ => []
  | x :: xs, seen =>
    if seen.elem x then dedupFS xs seen else x :: dedupFS xs (x :: seen)

/-- Python / pandas string ordering: lexicographic by code point. -/
def strLtB (a b : List Char) : Bool :=
  match a, b with
  | [], [] => false
  | [], _ :: _ => true
  | _ :: _, [] => false
  | a :: as, b :: bs => a.toNat < b.toNat || (a.toNat == b.toNat && strLtB as bs)

/-- One output row of `compute_brand_stats`. -/
structure BrandRow where
  brand : String
  total_repairs : Nat
  successful_repairs : Nat
  failed_repairs : Nat
  success_rate : ℚ
deriving DecidableEq

/-- Number of records of `df` whose `brand` equals `some b`. -/
def countBrand (df : List Record) (b : String) : Nat :=
  (df.filter (fun r => r.brand == some b)).length

/-- Number of records of brand `b` with `successful == some true`. -/
def countSucc (df : List Record) (b : String) : Nat :=
  (df.filter (fun r => r.brand == some b && r.successful == some true)).length

/-- Number of records of brand `b` with `successful == some false`. -/
def countFail (df : List Record) (b : String) : Nat :=
  (df.filter (fun r => r.brand == some b && r.successful == some false)).length

/-- The success rate assigned to a brand with `s` successful and `f` failed
records: the completed-subset mean times 100, with the left-merge `fillna(0)`
giving 0 when the brand has no completed records. -/
def rateOf (s f : Nat) : ℚ :=
  if s + f = 0 then 0 else (s : ℚ) / ((s : ℚ) + (f : ℚ)) * 100

/-- `compute_brand_stats(df)`: group by `brand` (null keys dropped, keys
sorted ascending), aggregate counts, merge the completed-subset success rate
(`fillna(0)`), then sort by `total_repairs` descending. -/
def compute_brand_stats (df : List Record) : List BrandRow :=
  let brands := sortBy (fun a b => strLtB a.data b.data) (dedupFS (df.filterMap (·.brand)) [])
  let rows := brands.map (fun b =>
    { brand := b
      total_repairs := countBrand df b
      successful_repairs := countSucc df b
      failed_repairs := countFail df b
      success_rate := rateOf (countSucc df b) (countFail df b) : BrandRow })
  sortBy (fun x y => decide (y.total_repairs < x.total_repairs)) rows

/-- Number of records of `df` whose `tool_type` equals `some t`. -/
def countTool (df : List Record) (t : String) : Nat :=
  (df.filter (fun r => r.tool_type == some t)).length

/-- `get_tool_type_counts(df)`: `value_counts` of the `tool_type` column.
Null cells are dropped (the pandas `dropna=True` default); the remaining
distinct values are counted and sorted by count descending (stably, ties in
first-seen order).  The key type is kept as `Option String` so that the
presence or absence of a null bucket is expressible. -/
def get_tool_type_counts (df : List Record) : List (Option String × Nat) :=
  sortBy (fun x y => decide (y.2 < x.2))
    ((dedupFS (df.filterMap (·.tool_type)) []).map (fun t => (some t, countTool df t)))

/-- `get_brand_tool_matrix(df)`: `pd.crosstab(df["brand"], df["tool_type"])`.
Rows where either key is null are dropped; row and column labels are the
sorted distinct remaining keys; cells count co-occurrences, zero-filled. -/
def get_brand_tool_matrix (df : List Record) : List (String × List (String × Nat)) :=
  let kept := df.filter (fun r => r.brand.isSome && r.tool_type.isSome)
  let rows := sortBy (fun a b => strLtB a.data b.data) (dedupFS (kept.filterMap (·.brand)) [])
  let cols := sortBy (fun a b => strLtB a.data b.data) (dedupFS (kept.filterMap (·.tool_type)) [])
  rows.map (fun b =>
    (b, cols.map (fun t =>
      (t, (kept.filter (fun r => r.brand == some b && r.tool_type == some t)).length))))

/-- One cell of the `component` / `components` columns: null, a bare string,
or a list of strings (the shapes `load_repairs` distinguishes with
`isinstance(..., list)`). -/
inductive Cell where
  | nullv : Cell
  | str : String → Cell
  | list : List String → Cell
deriving DecidableEq

/-- The `components` normalization of `load_repairs`, per row.  `hasComp` and
`hasComps` say whether the `component` / `components` columns exist in the
data frame; the result is the row's new `components` cell, or `none` when
neither column exists (no `components` column is created). -/
def load_components (hasComp hasComps : Bool) (component : Option String)
    (components : Cell) : Option Cell :=
  if hasComp && !hasComps then
    -- old format: normalize string into list
    some (.list (normalize_components component))
  else if hasComp && hasComps then
    -- mixed: prefer components if present, fall back to component
    some (.list (match components with
      | .list (x :: xs) => x :: xs
      | _ => normalize_components component))
  else if hasComps then
    -- new format: ensure lists, normalize any stray strings
    some (.list (match components with
      | .list l => l
      | .str s => normalize_components (some s)
      | .nullv => normalize_components none))
  else none

/-- Spec-side restatement of the matching step (claim C2): the first rule in
table order one of whose keywords is a substring of the lowercased trimmed
string, expressed with `List.find?`. -/
def _match_component_spec (text : List Char) : Option String :=
  (_COMPONENT_RULES.find?
    (fun pair => pair.2.any (fun kw => occursInL kw.data (trimL (lowerL text))))).map
    (fun pair => pair.1)

/-- Spec-side restatement of `normalize_components` (claim C2): null/empty to
`[]`; whole-string match first; otherwise split on the three delimiters, match
each fragment, collect distinct labels in first-seen order; fall back to the
trimmed original input. -/
def normalize_components_spec (component : Option String) : List String :=
  match component with
  | none => []
  | some s =>
    if s = "" then []
    else
      match _match_component_spec s.data with
      | some full => [full]
      | none =>
        let labels := dedupFS ((splitD s.data).filterMap (fun p => _match_component_spec p)) []
        if labels = [] then [trimStr s] else labels

/-! ## Substring characterization -/

theorem leadsWith_iff (n h : List Char) : leadsWith n h = true ↔ ∃ v, h = n ++ v := by
  induction n generalizing h with
  | nil => simp [leadsWith]
  | cons a as ih =>
    cases h with
    | nil => simp [leadsWith]
    | cons b bs =>
      simp only [leadsWith, Bool.and_eq_true, beq_iff_eq, ih, List.cons_append,
        List.cons.injEq]
      constructor
      · rintro ⟨rfl, v, rfl⟩; exact ⟨v, rfl, rfl⟩
      · rintro ⟨v, rfl, rfl⟩; exact ⟨rfl, v, rfl⟩

theorem occursInL_iff (n h : List Char) : occursInL n h = true ↔ ∃ u v, h = u ++ n ++ v := by
  induction h with
  | nil =>
    simp only [occursInL, leadsWith_iff]
    constructor
    · rintro ⟨v, hv⟩
      exact ⟨[], v, by simpa using hv⟩
    · rintro ⟨u, v, huv⟩
      have hu : u = [] := by
        cases u with
        | nil => rfl
        | cons x xs => simp at huv
      subst hu
      exact ⟨v, by simpa using huv⟩
  | cons c rest ih =>
    simp only [occursInL, Bool.or_eq_true, leadsWith_iff, ih]
    constructor
    · rintro (⟨v, hv⟩ | ⟨u, v, huv⟩)
      · exact ⟨[], v, by simpa using hv⟩
      · exact ⟨c :: u, v, by simp [huv]⟩
    · rintro ⟨u, v, huv⟩
      cases u with
      | nil => exact Or.inl ⟨v, by simpa using huv⟩
      | cons x xs =>
        simp only [List.cons_append, List.cons.injEq] at huv
        exact Or.inr ⟨xs, v, huv.2⟩

theorem occursInL_of_occursInL_of_occursInL {a b c : List Char}
    (hab : occursInL a b = true) (hbc : occursInL b c = true) :
    occursInL a c = true := by
  rw [occursInL_iff] at hab hbc ⊢
  obtain ⟨u, v, rfl⟩ := hab
  obtain ⟨x, y, rfl⟩ := hbc
  exact ⟨x ++ u, v ++ y, by simp⟩

theorem occursInL_map {a b : List Char} (f : Char → Char)
    (hab : occursInL a b = true) : occursInL (a.map f) (b.map f) = true := by
  rw [occursInL_iff] at hab ⊢
  obtain ⟨u, v, rfl⟩ := hab
  exact ⟨u.map f, v.map f, by simp⟩

/-! ## Trim structure -/

theorem dropWhile_eq_trimL_append (l : List Char) :
    l.dropWhile sp = trimL l ++ ((l.dropWhile sp).reverse.takeWhile sp).reverse := by
  calc l.dropWhile sp = (l.dropWhile sp).reverse.reverse := (List.reverse_reverse _).symm
    _ = ((l.dropWhile sp).reverse.takeWhile sp ++ (l.dropWhile sp).reverse.dropWhile sp).reverse := by
        rw [List.takeWhile_append_dropWhile]
    _ = trimL l ++ ((l.dropWhile sp).reverse.takeWhile sp).reverse := by
        rw [List.reverse_append]; rfl

theorem trimL_decomp (l : List Char) : ∃ u v, l = u ++ trimL l ++ v := by
  refine ⟨l.takeWhile sp, ((l.dropWhile sp).reverse.takeWhile sp).reverse, ?_⟩
  conv_lhs => rw [← List.takeWhile_append_dropWhile sp l, dropWhile_eq_trimL_append l]
  exact (List.append_assoc _ _ _).symm

theorem occursInL_trimL (l : List Char) : occursInL (trimL l) l = true := by
  rw [occursInL_iff]
  obtain ⟨u, v, h⟩ := trimL_decomp l
  exact ⟨u, v, h⟩

theorem head_dropWhile_not {p : Char → Bool} {l : List Char} {x : Char}
    (h : (l.dropWhile p).head? = some x) : p x = false := by
  induction l with
  | nil => simp at h
  | cons c rest ih =>
    rw [List.dropWhile_cons] at h
    by_cases hc : p c
    · rw [if_pos hc] at h; exact ih h
    · rw [if_neg hc] at h
      simp only [List.head?_cons, Option.some.injEq] at h
      subst h
      exact Bool.not_eq_true _ ▸ (by simpa using hc)

theorem trimL_lastOK {l : List Char} {x : Char}
    (h : (trimL l).getLast? = some x) : sp x = false := by
  unfold trimL at h
  rw [List.getLast?_reverse] at h
  exact head_dropWhile_not h

theorem trimL_headOK {l : List Char} {x : Char}
    (h : (trimL l).head? = some x) : sp x = false := by
  -- trimL l starts the list dropWhile sp l, whose head is not whitespace
  have hd := dropWhile_eq_trimL_append l
  have hhd : (l.dropWhile sp).head? = some x := by
    rw [hd]
    cases htl : trimL l with
    | nil => rw [htl] at h; simp at h
    | cons y ys =>
      rw [htl] at h
      simp only [List.head?_cons, Option.some.injEq] at h
      subst h
      simp
  exact head_dropWhile_not hhd

/-! ## Whitespace absorption: a substring with non-whitespace ends survives trimming -/

theorem dropWhile_append_nsp {u w : List Char} {x : Char}
    (hw : w.head? = some x) (hx : sp x = false) :
    (u ++ w).dropWhile sp = u.dropWhile sp ++ w := by
  induction u with
  | nil =>
    cases w with
    | nil => simp at hw
    | cons a w' =>
      simp only [List.head?_cons, Option.some.injEq] at hw
      subst hw
      simp [List.dropWhile_cons, hx]
  | cons c u' ih =>
    by_cases hc : sp c <;> simp [List.dropWhile_cons, hc, ih]

theorem occursInL_trimL_of_ends {X l : List Char}
    (hocc : occursInL X l = true)
    (hhead : ∀ x, X.head? = some x → sp x = false)
    (hlast : ∀ x, X.getLast? = some x → sp x = false) :
    occursInL X (trimL l) = true := by
  cases hX : X with
  | nil =>
    rw [occursInL_iff]
    exact ⟨[], trimL l, by simp⟩
  | cons x X' =>
    subst hX
    obtain ⟨u, v, rfl⟩ := (occursInL_iff _ _).mp hocc
    have hx : sp x = false := hhead x rfl
    obtain ⟨y, Y, hR⟩ : ∃ y Y, (x :: X').reverse = y :: Y := by
      cases hR : (x :: X').reverse with
      | nil => exact absurd (congrArg List.length hR) (by simp)
      | cons y Y => exact ⟨y, Y, rfl⟩
    have hy : sp y = false := by
      apply hlast
      rw [← List.head?_reverse, hR]; rfl
    have h1 : (u ++ ((x :: X') ++ v)).dropWhile sp = u.dropWhile sp ++ ((x :: X') ++ v) :=
      dropWhile_append_nsp (by simp) hx
    have h2 : ((x :: X').reverse ++ (u.dropWhile sp).reverse).head? = some y := by
      rw [hR]; rfl
    have calc1 : trimL (u ++ (x :: X') ++ v)
        = u.dropWhile sp ++ (x :: X') ++ (v.reverse.dropWhile sp).reverse := by
      unfold trimL
      rw [List.append_assoc, h1]
      rw [List.reverse_append, List.reverse_append, List.append_assoc]
      rw [dropWhile_append_nsp h2 hy]
      rw [List.reverse_append, List.reverse_append]
      simp [List.append_assoc]
    rw [occursInL_iff, calc1]
    exact ⟨u.dropWhile sp, (v.reverse.dropWhile sp).reverse, rfl⟩

theorem occursInL_trimL_lowerL_of_frag {l p : List Char}
    (hfrag : ∃ u v, l = u ++ p ++ v) {kw : List Char}
    (hkw : occursInL kw (trimL (lowerL p)) = true) :
    occursInL kw (trimL (lowerL l)) = true := by
  obtain ⟨u, v, rfl⟩ := hfrag
  have h2 : occursInL (lowerL p) (lowerL (u ++ p ++ v)) = true := by
    rw [occursInL_iff]
    exact ⟨lowerL u, lowerL v, by simp [lowerL]⟩
  have hX : occursInL (trimL (lowerL p)) (lowerL (u ++ p ++ v)) = true :=
    occursInL_of_occursInL_of_occursInL (occursInL_trimL (lowerL p)) h2
  have habs : occursInL (trimL (lowerL p)) (trimL (lowerL (u ++ p ++ v))) = true :=
    occursInL_trimL_of_ends hX (fun x hx => trimL_headOK hx) (fun x hx => trimL_lastOK hx)
  exact occursInL_of_occursInL_of_occursInL hkw habs

/-! ## Rule-table scanning -/

theorem findLabel_eq_none_iff (rules : List (String × List String)) (t : List Char) :
    findLabel rules t = none ↔
      ∀ pair ∈ rules, ∀ kw ∈ pair.2, occursInL kw.data t = false := by
  induction rules with
  | nil => simp [findLabel]
  | cons pr rs ih =>
    obtain ⟨label, kws⟩ := pr
    by_cases h : kws.any (fun kw => occursInL kw.data t) = true
    · simp only [findLabel, if_pos h]
      rw [List.any_eq_true] at h
      obtain ⟨kw, hkwmem, hkw⟩ := h
      constructor
      · intro hc; exact absurd hc (by simp)
      · intro hall
        have := hall (label, kws) (by simp) kw hkwmem
        rw [hkw] at this
        cases this
    · simp only [findLabel, if_neg h, ih]
      have hany : kws.any (fun kw => occursInL kw.data t) = false := by
        cases hc : kws.any (fun kw => occursInL kw.data t)
        · rfl
        · exact absurd hc h
      have hfalse : ∀ kw ∈ kws, occursInL kw.data t = false := by
        intro kw hkw
        have := List.any_eq_false.mp hany kw hkw
        simpa using this
      constructor
      · intro hall pair hmem kw hkw
        rcases List.mem_cons.mp hmem with rfl | hmem'
        · exact hfalse kw hkw
        · exact hall pair hmem' kw hkw
      · intro hall pair hmem kw hkw
        exact hall pair (List.mem_cons_of_mem _ hmem) kw hkw

theorem findLabel_eq_some_exists {rules : List (String × List String)} {t : List Char}
    {label : String} (h : findLabel rules t = some label) :
    ∃ kws, (label, kws) ∈ rules ∧ ∃ kw ∈ kws, occursInL kw.data t = true := by
  induction rules with
  | nil => simp [findLabel] at h
  | cons pr rs ih =>
    obtain ⟨lab, kws⟩ := pr
    by_cases hc : kws.any (fun kw => occursInL kw.data t) = true
    · rw [findLabel, if_pos hc] at h
      simp only [Option.some.injEq] at h
      subst h
      rw [List.any_eq_true] at hc
      exact ⟨kws, by simp, hc⟩
    · rw [findLabel, if_neg hc] at h
      obtain ⟨kws', hmem, hex⟩ := ih h
      exact ⟨kws', List.mem_cons_of_mem _ hmem, hex⟩

/-- Master lemma: if the whole string matches no rule, then no fragment of it
matches a rule either, because a keyword occurring in a trimmed fragment also
occurs in the trimmed whole string. -/
theorem _match_component_frag_none {l p : List Char}
    (hl : _match_component l = none) (hfrag : ∃ u v, l = u ++ p ++ v) :
    _match_component p = none := by
  unfold _match_component at hl ⊢
  cases hp : findLabel _COMPONENT_RULES (trimL (lowerL p)) with
  | none => rfl
  | some lab =>
    obtain ⟨kws, hmem, kw, hkwm, hocc⟩ := findLabel_eq_some_exists hp
    have hw : occursInL kw.data (trimL (lowerL l)) = true :=
      occursInL_trimL_lowerL_of_frag hfrag hocc
    have hfalse := (findLabel_eq_none_iff _ _).mp hl (lab, kws) hmem kw hkwm
    rw [hw] at hfalse
    cases hfalse

/-! ## Fragments of the split are contiguous pieces of the input -/

theorem splitDF_ne_nil (fuel : Nat) (l : List Char) : splitDF fuel l ≠ [] := by
  match fuel, l with
  | fuel, [] => simp [splitDF]
  | 0, c :: rest => simp [splitDF]
  | fuel + 1, c :: rest =>
    simp only [splitDF]
    by_cases h1 : (c == ',' || c == '/') = true
    · simp [h1]
    · rw [if_neg h1]
      by_cases h2 : leadsWith andDelim (c :: rest) = true
      · simp [h2]
      · rw [if_neg h2]
        cases hs : splitDF fuel rest <;> simp

theorem splitDF_frag (fuel : Nat) : ∀ l : List Char, l.length ≤ fuel →
    (∀ f, (splitDF fuel l).head? = some f → ∃ v, l = f ++ v) ∧
    (∀ p ∈ splitDF fuel l, ∃ u v, l = u ++ p ++ v) := by
  induction fuel with
  | zero =>
    intro l hl
    have hnil : l = [] := List.eq_nil_of_length_eq_zero (Nat.le_zero.mp hl)
    subst hnil
    constructor
    · intro f hf
      simp only [splitDF, List.head?_cons, Option.some.injEq] at hf
      exact ⟨[], by simp [← hf]⟩
    · intro p hp
      simp only [splitDF, List.mem_singleton] at hp
      exact ⟨[], [], by simp [hp]⟩
  | succ fuel ih =>
    intro l hl
    cases l with
    | nil =>
      constructor
      · intro f hf
        simp only [splitDF, List.head?_cons, Option.some.injEq] at hf
        exact ⟨[], by simp [← hf]⟩
      · intro p hp
        simp only [splitDF, List.mem_singleton] at hp
        exact ⟨[], [], by simp [hp]⟩
    | cons c rest =>
      have hrest : rest.length ≤ fuel := by
        simp only [List.length_cons] at hl
        omega
      simp only [splitDF]
      by_cases h1 : (c == ',' || c == '/') = true
      · rw [if_pos h1]
        obtain ⟨ihh, ihp⟩ := ih rest hrest
        constructor
        · intro f hf
          simp only [List.head?_cons, Option.some.injEq] at hf
          exact ⟨c :: rest, by simp [← hf]⟩
        · intro p hp
          rcases List.mem_cons.mp hp with rfl | hp'
          · exact ⟨[], c :: rest, rfl⟩
          · obtain ⟨u, v, huv⟩ := ihp p hp'
            exact ⟨c :: u, v, by simp [huv]⟩
      · rw [if_neg h1]
        by_cases h2 : leadsWith andDelim (c :: rest) = true
        · rw [if_pos h2]
          have hdrop : (rest.drop 4).length ≤ fuel := by
            simp only [List.length_drop]
            omega
          obtain ⟨ihh, ihp⟩ := ih (rest.drop 4) hdrop
          constructor
          · intro f hf
            simp only [List.head?_cons, Option.some.injEq] at hf
            exact ⟨c :: rest, by simp [← hf]⟩
          · intro p hp
            rcases List.mem_cons.mp hp with rfl | hp'
            · exact ⟨[], c :: rest, rfl⟩
            · obtain ⟨u, v, huv⟩ := ihp p hp'
              refine ⟨c :: rest.take 4 ++ u, v, ?_⟩
              have htd : rest = rest.take 4 ++ rest.drop 4 := (List.take_append_drop 4 rest).symm
              conv_lhs => rw [htd]
              rw [huv]
              simp [List.append_assoc]
        · rw [if_neg h2]
          obtain ⟨ihh, ihp⟩ := ih rest hrest
          cases hs : splitDF fuel rest with
          | nil => exact absurd hs (splitDF_ne_nil fuel rest)
          | cons f fs =>
            have hf0 : ∃ v, rest = f ++ v := ihh f (by rw [hs]; rfl)
            constructor
            · intro g hg
              simp only [List.head?_cons, Option.some.injEq] at hg
              obtain ⟨v, hv⟩ := hf0
              exact ⟨v, by rw [← hg, hv]; rfl⟩
            · intro p hp
              rcases List.mem_cons.mp hp with rfl | hp'
              · obtain ⟨v, hv⟩ := hf0
                exact ⟨[], v, by rw [hv]; rfl⟩
              · have hmem : p ∈ splitDF fuel rest := by
                  rw [hs]
                  exact List.mem_cons_of_mem _ hp'
                obtain ⟨u, v, huv⟩ := ihp p hmem
                exact ⟨c :: u, v, by simp [huv]⟩

theorem splitD_frag {l p : List Char} (hp : p ∈ splitD l) : ∃ u v, l = u ++ p ++ v :=
  (splitDF_frag l.length l (Nat.le_refl _)).2 p hp

/-! ## The fragment loop -/

theorem collectMatched_none {ps : List (List Char)}
    (h : ∀ p ∈ ps, _match_component p = none) :
    ∀ matched seen, collectMatched ps matched seen = matched := by
  induction ps with
  | nil => intro m s; rfl
  | cons p ps ih =>
    intro m s
    simp only [collectMatched]
    rw [h p (by simp)]
    exact ih (fun q hq => h q (List.mem_cons_of_mem _ hq)) m s

/-- Shape of `normalize_components` on a nonempty string: either the whole
string matches a rule and the result is that single label, or no rule matches
anywhere (whole string and every fragment) and the result is the trimmed
input verbatim. -/
theorem norm_shape (s : String) (hs : ¬ s = "") :
    (∃ lab, _match_component s.data = some lab ∧ normalize_components (some s) = [lab]) ∨
    (_match_component s.data = none ∧ collectMatched (splitD s.data) [] [] = [] ∧
      normalize_components (some s) = [trimStr s]) := by
  cases hm : _match_component s.data with
  | some lab =>
    left
    exact ⟨lab, rfl, by simp [normalize_components, hs, hm]⟩
  | none =>
    right
    have hcol : collectMatched (splitD s.data) [] [] = [] :=
      collectMatched_none (fun p hp => _match_component_frag_none hm (splitD_frag hp)) [] []
    exact ⟨rfl, hcol, by simp [normalize_components, hs, hm, hcol]⟩

/-! ## Lowercasing commutes with trimming; trimming is idempotent -/

theorem sp_lowerChar (c : Char) : sp (lowerChar c) = sp c := by
  unfold sp lowerChar
  split
  · rename_i h
    apply decide_eq_decide.mpr
    show c.toNat + 32 = 32 ∨ c.toNat + 32 = 9 ∨ c.toNat + 32 = 10 ∨ c.toNat + 32 = 13 ∨
      c.toNat + 32 = 11 ∨ c.toNat + 32 = 12 ∨ c.toNat + 32 = 28 ∨ c.toNat + 32 = 29 ∨
      c.toNat + 32 = 30 ∨ c.toNat + 32 = 31 ∨ c.toNat + 32 = 133 ∨ c.toNat + 32 = 160 ↔ _
    omega
  · rfl

theorem lowerL_dropWhile (l : List Char) :
    lowerL (l.dropWhile sp) = (lowerL l).dropWhile sp := by
  unfold lowerL
  have hsp : (sp ∘ lowerChar) = sp := funext sp_lowerChar
  rw [List.dropWhile_map, hsp]

theorem lowerL_reverse (l : List Char) : lowerL l.reverse = (lowerL l).reverse :=
  List.map_reverse lowerChar l

theorem lowerL_trimL (l : List Char) : lowerL (trimL l) = trimL (lowerL l) := by
  unfold trimL
  rw [← lowerL_dropWhile, ← lowerL_reverse, ← lowerL_dropWhile, ← lowerL_reverse]

theorem dropWhile_eq_self_of_headOK {l : List Char}
    (h : ∀ x, l.head? = some x → sp x = false) : l.dropWhile sp = l := by
  cases l with
  | nil => rfl
  | cons c rest => simp [List.dropWhile_cons, h c rfl]

theorem trimL_idem (l : List Char) : trimL (trimL l) = trimL l := by
  have h1 : (trimL l).dropWhile sp = trimL l :=
    dropWhile_eq_self_of_headOK (fun x hx => trimL_headOK hx)
  have h2 : (trimL l).reverse.dropWhile sp = (trimL l).reverse := by
    apply dropWhile_eq_self_of_headOK
    intro x hx
    rw [List.head?_reverse] at hx
    exact trimL_lastOK hx
  show (((trimL l).dropWhile sp).reverse.dropWhile sp).reverse = trimL l
  rw [h1, h2, List.reverse_reverse]

theorem _match_component_trimL (s : List Char) :
    _match_component (trimL s) = _match_component s := by
  unfold _match_component
  rw [lowerL_trimL, trimL_idem]

theorem trimStr_idem (s : String) : trimStr (trimStr s) = trimStr s := by
  unfold trimStr
  rw [trimL_idem]

/-- Every standardized label re-normalizes to itself: the label is matched by
its own rule before any earlier rule fires.  Finite check over the table. -/
theorem labels_self_match :
    ∀ pair ∈ _COMPONENT_RULES, normalize_components (some pair.1) = [pair.1] := by decide

/-! ## Equivalence of the spec-side and code-side normalizer -/

theorem findLabel_eq_find? (t : List Char) : ∀ rules : List (String × List String),
    findLabel rules t =
      (rules.find? (fun pair => pair.2.any (fun kw => occursInL kw.data t))).map
        (fun pair => pair.1) := by
  intro rules
  induction rules with
  | nil => rfl
  | cons pr rs ih =>
    obtain ⟨label, kws⟩ := pr
    by_cases h : kws.any (fun kw => occursInL kw.data t) = true
    · rw [findLabel, if_pos h]
      simp [List.find?, h]
    · have hf : kws.any (fun kw => occursInL kw.data t) = false := by
        cases hc : kws.any (fun kw => occursInL kw.data t)
        · rfl
        · exact absurd hc h
      rw [findLabel, if_neg h, ih]
      simp [List.find?, hf]

theorem _match_component_spec_eq (t : List Char) :
    _match_component_spec t = _match_component t := by
  unfold _match_component_spec _match_component
  rw [findLabel_eq_find?]

theorem collectMatched_eq_dedupFS : ∀ (ps : List (List Char)) (matched seen : List String),
    collectMatched ps matched seen =
      matched ++ dedupFS (ps.filterMap (fun p => _match_component p)) seen := by
  intro ps
  induction ps with
  | nil => intro m s; simp [collectMatched, dedupFS]
  | cons p ps ih =>
    intro m s
    simp only [collectMatched, List.filterMap_cons]
    cases hm : _match_component p with
    | none => rw [ih]
    | some lab =>
      simp only [dedupFS]
      by_cases hseen : s.elem lab = true
      · rw [if_pos hseen, if_pos hseen, ih]
      · rw [if_neg hseen, if_neg hseen, ih, List.append_assoc]
        rfl

/-! ## Membership through the pandas-style sorts and dedup -/

theorem mem_insertBy {f : α → α → Bool} {x a : α} {l : List α} :
    a ∈ insertBy f x l ↔ a = x ∨ a ∈ l := by
  induction l with
  | nil => simp [insertBy]
  | cons y ys ih =>
    simp only [insertBy]
    by_cases h : f x y = true
    · simp [h, List.mem_cons]
    · rw [if_neg h]
      simp only [List.mem_cons, ih]
      tauto

theorem mem_sortBy {f : α → α → Bool} {a : α} {l : List α} :
    a ∈ sortBy f l ↔ a ∈ l := by
  unfold sortBy
  suffices h : ∀ (l acc : List α),
      (a ∈ l.foldl (fun acc x => insertBy f x acc) acc ↔ a ∈ acc ∨ a ∈ l) by
    simpa using h l []
  intro l
  induction l with
  | nil => simp
  | cons x xs ih =>
    intro acc
    rw [List.foldl_cons, ih, mem_insertBy]
    simp [List.mem_cons]
    tauto

theorem mem_dedupFS {a : String} : ∀ {l seen : List String},
    a ∈ dedupFS l seen ↔ a ∈ l ∧ a ∉ seen := by
  intro l
  induction l with
  | nil => intro seen; simp [dedupFS]
  | cons x xs ih =>
    intro seen
    simp only [dedupFS]
    by_cases h : x ∈ seen
    · rw [if_pos (List.elem_iff.mpr h), ih]
      simp only [List.mem_cons]
      constructor
      · rintro ⟨ha, hs⟩; exact ⟨Or.inr ha, hs⟩
      · rintro ⟨(rfl | ha), hs⟩
        · exact absurd h hs
        · exact ⟨ha, hs⟩
    · rw [if_neg (fun hc => h (List.elem_iff.mp hc))]
      simp only [List.mem_cons, ih]
      constructor
      · rintro (rfl | ⟨ha, hs⟩)
        · exact ⟨Or.inl rfl, h⟩
        · exact ⟨Or.inr ha, fun hc => hs (Or.inr hc)⟩
      · rintro ⟨(rfl | ha), hs⟩
        · exact Or.inl rfl
        · by_cases hax : a = x
          · exact Or.inl hax
          · exact Or.inr ⟨ha, fun hc => hc.elim hax hs⟩

/-! ## Aggregation support lemmas -/

theorem length_filter_pos_iff {α : Type} {l : List α} {p : α → Bool} :
    0 < (l.filter p).length ↔ ∃ a ∈ l, p a = true := by
  rw [List.length_pos]
  constructor
  · intro h
    by_contra hc
    push_neg at hc
    apply h
    rw [List.filter_eq_nil_iff]
    intro a ha
    simp [hc a ha]
  · rintro ⟨a, ha, hp⟩ hnil
    have := (List.filter_eq_nil_iff.mp hnil) a ha
    rw [hp] at this
    exact this rfl

theorem countTool_pos_iff {df : List Record} {t : String} :
    0 < countTool df t ↔ ∃ r ∈ df, r.tool_type = some t := by
  unfold countTool
  rw [length_filter_pos_iff]
  constructor
  · rintro ⟨r, hr, hb⟩
    exact ⟨r, hr, by simpa using hb⟩
  · rintro ⟨r, hr, hb⟩
    exact ⟨r, hr, by simp [hb]⟩

theorem filterMap_brand_filter (df : List Record) :
    (df.filter (fun r => r.brand.isSome)).filterMap (fun r => r.brand) =
      df.filterMap (fun r => r.brand) := by
  induction df with
  | nil => rfl
  | cons r rs ih =>
    cases hb : r.brand with
    | none => simp [List.filter_cons, List.filterMap_cons, hb, ih]
    | some b => simp [List.filter_cons, List.filterMap_cons, hb, ih]

theorem filter_brandSome (df : List Record) (q : Record → Bool)
    (himp : ∀ r, q r = true → r.brand.isSome = true) :
    (df.filter (fun r => r.brand.isSome)).filter q = df.filter q := by
  rw [List.filter_filter]
  apply List.filter_congr
  intro r _
  by_cases h : q r = true
  · rw [h, himp r h]
    rfl
  · have hf : q r = false := by
      cases hq : q r
      · rfl
      · exact absurd hq h
    rw [hf]
    rfl

theorem countBrand_filter (df : List Record) (b : String) :
    countBrand (df.filter (fun r => r.brand.isSome)) b = countBrand df b := by
  unfold countBrand
  rw [filter_brandSome]
  intro r h
  cases hb : r.brand with
  | none => rw [hb] at h; exact absurd h (by simp)
  | some x => simp [hb]

theorem countSucc_filter (df : List Record) (b : String) :
    countSucc (df.filter (fun r => r.brand.isSome)) b = countSucc df b := by
  unfold countSucc
  rw [filter_brandSome]
  intro r h
  rw [Bool.and_eq_true] at h
  cases hb : r.brand with
  | none => rw [hb] at h; exact absurd h.1 (by simp)
  | some x => simp [hb]

theorem countFail_filter (df : List Record) (b : String) :
    countFail (df.filter (fun r => r.brand.isSome)) b = countFail df b := by
  unfold countFail
  rw [filter_brandSome]
  intro r h
  rw [Bool.and_eq_true] at h
  cases hb : r.brand with
  | none => rw [hb] at h; exact absurd h.1 (by simp)
  | some x => simp [hb]

/-! ## Claim theorems -/

/-- C1: the claim says `normalize_components("bearings, switch, belt")` returns
`["Bearing", "Switch", "Belt / Drive"]`; the code instead returns `["Switch"]`,
because the whole-string phase already fires on the `switch` keyword (the first
matching rule in table order) and the fragment phase is never reached.  This
contradicts the function's own docstring example, which shows a multi-label
result for a comma-separated input. -/
theorem c1_normalize_bearings_switch_belt :
    normalize_components (some "bearings, switch, belt") = ["Switch"] ∧
    ¬ normalize_components (some "bearings, switch, belt") =
        ["Bearing", "Switch", "Belt / Drive"] := by decide

/-- C4: `categorize` returns exactly one label from the closed seven-element
set; a reason matching both an economic keyword and a damage keyword resolves
to `Not Economical` (economic group checked first); `categorize(None)` is
`Unknown`; `"too expensive to fix"` gives `Not Economical`; and
`"water damage to the board"` gives `Water/Corrosion`. -/
theorem c4_categorize_closed_set_priority :
    (∀ r : Option String, categorize r ∈ (["Not Economical", "Water/Corrosion",
      "Parts Unavailable", "Severe Damage", "Component Failure", "Other",
      "Unknown"] : List String)) ∧
    (∀ s : String, anyKw econ_keywords (lowerL s.data) = true →
      anyKw damage_keywords (lowerL s.data) = true →
      categorize (some s) = "Not Economical") ∧
    categorize none = "Unknown" ∧
    categorize (some "too expensive to fix") = "Not Economical" ∧
    categorize (some "water damage to the board") = "Water/Corrosion" := by
  refine ⟨?_, ?_, by decide, by decide, by decide⟩
  · intro r
    cases r with
    | none => simp [categorize]
    | some s =>
      simp only [categorize]
      split_ifs <;> simp
  · intro s he hd
    simp [categorize, he]

/-- Witness for C4 at a concrete reason matching both an economic keyword
(`not worth`) and a damage keyword (`burnt`). -/
theorem c4_witness :
    anyKw econ_keywords (lowerL "not worth fixing, completely burnt".data) = true ∧
    anyKw damage_keywords (lowerL "not worth fixing, completely burnt".data) = true ∧
    categorize (some "not worth fixing, completely burnt") = "Not Economical" :=
  ⟨by decide, by decide,
    c4_categorize_closed_set_priority.2.1 "not worth fixing, completely burnt"
      (by decide) (by decide)⟩

/-- C9: normalizer and categorizer are total with safe defaults — null/empty
component gives `[]`, null reason gives `Unknown`, a reason matching no
keyword group gives `Other`, and unmatched non-empty component text passes
through as the trimmed raw text rather than being dropped. -/
theorem c9_total_fallbacks :
    normalize_components none = [] ∧
    normalize_components (some "") = [] ∧
    categorize none = "Unknown" ∧
    (∀ s : String,
      anyKw econ_keywords (lowerL s.data) = false →
      (occursInL "water".data (lowerL s.data) || occursInL "corrosion".data (lowerL s.data) ||
        occursInL "acid".data (lowerL s.data) || occursInL "rust".data (lowerL s.data)) = false →
      anyKw parts_keywords (lowerL s.data) = false →
      anyKw damage_keywords (lowerL s.data) = false →
      anyKw elec_keywords (lowerL s.data) = false →
      categorize (some s) = "Other") ∧
    (∀ s : String, ¬ s = "" → _match_component s.data = none →
      normalize_components (some s) = [trimStr s]) := by
  refine ⟨by decide, by decide, by decide, ?_, ?_⟩
  · intro s h1 h2 h3 h4 h5
    simp [categorize, h1, h2, h3, h4, h5]
  · intro s hs hm
    rcases norm_shape s hs with ⟨lab, hsome, _⟩ | ⟨_, _, hres⟩
    · rw [hm] at hsome
      cases hsome
    · exact hres

/-- Witness for C9: a reason matching no keyword group, and an unmatched
non-empty component with surrounding whitespace. -/
theorem c9_witness :
    categorize (some "gremlins ate it") = "Other" ∧
    normalize_components (some " mystery gadget ") = [trimStr " mystery gadget "] :=
  ⟨c9_total_fallbacks.2.2.2.1 "gremlins ate it" (by decide) (by decide) (by decide)
      (by decide) (by decide),
    c9_total_fallbacks.2.2.2.2 " mystery gadget " (by decide) (by decide)⟩

/-- C3: `normalize_components` always returns at most one element — once the
whole-string phase fails, no fragment can match either (any keyword contained
in a trimmed fragment is a substring of the trimmed whole string), so the
fragment loop contributes nothing and the fallback singleton is returned. -/
theorem c3_at_most_one_label :
    ∀ c : Option String, (normalize_components c).length ≤ 1 ∧
      (∀ s : String, c = some s → ¬ s = "" → _match_component s.data = none →
        collectMatched (splitD s.data) [] [] = [] ∧
        normalize_components c = [trimStr s]) := by
  intro c
  constructor
  · cases c with
    | none => simp [normalize_components]
    | some s =>
      by_cases hs : s = ""
      · simp [normalize_components, hs]
      · rcases norm_shape s hs with ⟨lab, _, hres⟩ | ⟨_, _, hres⟩ <;> simp [hres]
  · rintro s rfl hs hm
    rcases norm_shape s hs with ⟨lab, hsome, _⟩ | ⟨_, hcol, hres⟩
    · rw [hm] at hsome
      cases hsome
    · exact ⟨hcol, hres⟩

/-- Witness for C3 at a concrete comma-separated input matching no rule. -/
theorem c3_witness :
    (normalize_components (some "flanges, widgets")).length ≤ 1 ∧
    collectMatched (splitD "flanges, widgets".data) [] [] = [] ∧
    normalize_components (some "flanges, widgets") = [trimStr "flanges, widgets"] :=
  ⟨(c3_at_most_one_label (some "flanges, widgets")).1,
    ((c3_at_most_one_label (some "flanges, widgets")).2 "flanges, widgets" rfl
      (by decide) (by decide)).1,
    ((c3_at_most_one_label (some "flanges, widgets")).2 "flanges, widgets" rfl
      (by decide) (by decide)).2⟩

/-- C2: `normalize_components` follows the four-step algorithm of the spec —
null/empty to `[]`, whole-string first-rule-in-table-order match, otherwise
split on the three delimiters and match fragments collecting distinct labels
in first-seen order, with the trimmed original input as final fallback.  The
spec-side restatement `normalize_components_spec` agrees with the code on
every input. -/
theorem c2_normalize_follows_spec :
    ∀ c : Option String, normalize_components_spec c = normalize_components c := by
  intro c
  cases c with
  | none => rfl
  | some s =>
    by_cases hs : s = ""
    · simp [normalize_components_spec, normalize_components, hs]
    · simp only [normalize_components_spec, normalize_components, if_neg hs]
      rw [_match_component_spec_eq]
      have hfm : (splitD s.data).filterMap (fun p => _match_component_spec p) =
          (splitD s.data).filterMap (fun p => _match_component p) := by
        have hfun : (fun p => _match_component_spec p) = (fun p => _match_component p) :=
          funext _match_component_spec_eq
        rw [hfun]
      cases hm : _match_component s.data with
      | some lab => rfl
      | none =>
        have hcM : collectMatched (splitD s.data) [] [] =
            dedupFS ((splitD s.data).filterMap (fun p => _match_component p)) [] := by
          simpa using collectMatched_eq_dedupFS (splitD s.data) [] []
        rw [hfm, ← hcM]

/-- C8 counterexample: for the all-whitespace input `" "`, the result is the
non-empty list `[""]`, but re-normalizing its single element (the empty
string) returns `[]`, so idempotence as claimed fails at `s = " "`. -/
theorem c8_counterexample :
    ¬ normalize_components (some " ") = [] ∧
    ¬ normalize_components (some ((normalize_components (some " ")).headD "")) =
        normalize_components (some " ") := by decide

/-- C8 amended: idempotence holds for every input whose trimmed form is
non-empty — re-normalizing the single returned element (a standardized label,
or the trimmed verbatim fallback) returns it unchanged. -/
theorem c8_idempotent_amended :
    ∀ s : String, ¬ normalize_components (some s) = [] → ¬ trimStr s = "" →
      normalize_components (some ((normalize_components (some s)).headD "")) =
        normalize_components (some s) := by
  intro s hne ht
  have hs : ¬ s = "" := by
    intro hc
    apply hne
    rw [hc]
    decide
  rcases norm_shape s hs with ⟨lab, hsome, hres⟩ | ⟨hm, _, hres⟩
  · rw [hres]
    show normalize_components (some lab) = [lab]
    obtain ⟨kws, hmem, _⟩ := findLabel_eq_some_exists hsome
    exact labels_self_match (lab, kws) hmem
  · rw [hres]
    show normalize_components (some (trimStr s)) = [trimStr s]
    have htm : _match_component (trimStr s).data = none := by
      show _match_component (trimL s.data) = none
      rw [_match_component_trimL]
      exact hm
    rcases norm_shape (trimStr s) ht with ⟨lab, hsome, _⟩ | ⟨_, _, hres2⟩
    · rw [htm] at hsome
      cases hsome
    · rw [hres2, trimStr_idem]

/-- Witness for the amended C8 at a concrete unmatched input. -/
theorem c8_witness :
    ¬ normalize_components (some "unknown doodad") = [] ∧
    ¬ trimStr "unknown doodad" = "" ∧
    normalize_components (some ((normalize_components (some "unknown doodad")).headD "")) =
      normalize_components (some "unknown doodad") :=
  ⟨by decide, by decide, c8_idempotent_amended "unknown doodad" (by decide) (by decide)⟩

/-- C7: `load_repairs` accepts the legacy shape (`component` string column)
and the current shape (`components` list column); with both columns present a
row's `components` wins exactly when it is a non-empty list, otherwise the
`component` field is normalized; and whenever either column exists, every
row's resulting `components` cell is a list, never a bare string. -/
theorem c7_load_components_shapes :
    (∀ (comp : Option String) (cell : Cell),
      load_components true false comp cell = some (.list (normalize_components comp))) ∧
    (∀ (comp : Option String) (l : List String),
      load_components false true comp (.list l) = some (.list l)) ∧
    (∀ (comp : Option String) (l : List String), ¬ l = [] →
      load_components true true comp (.list l) = some (.list l)) ∧
    (∀ (comp : Option String) (cell : Cell), (∀ l : List String, ¬ l = [] → ¬ cell = .list l) →
      load_components true true comp cell = some (.list (normalize_components comp))) ∧
    (∀ (hc hcs : Bool) (comp : Option String) (cell : Cell), hc = true ∨ hcs = true →
      ∃ l : List String, load_components hc hcs comp cell = some (.list l)) := by
  refine ⟨fun comp cell => rfl, fun comp l => rfl, ?_, ?_, ?_⟩
  · intro comp l hl
    cases l with
    | nil => exact absurd rfl hl
    | cons x xs => rfl
  · intro comp cell hcell
    cases cell with
    | nullv => rfl
    | str s => rfl
    | list l =>
      cases l with
      | nil => rfl
      | cons x xs => exact absurd rfl (hcell (x :: xs) (by simp))
  · intro hc hcs comp cell h
    cases hc with
    | true =>
      cases hcs with
      | false => exact ⟨normalize_components comp, rfl⟩
      | true =>
        cases cell with
        | nullv => exact ⟨normalize_components comp, rfl⟩
        | str s => exact ⟨normalize_components comp, rfl⟩
        | list l =>
          cases l with
          | nil => exact ⟨normalize_components comp, rfl⟩
          | cons x xs => exact ⟨x :: xs, rfl⟩
    | false =>
      cases hcs with
      | true =>
        cases cell with
        | nullv => exact ⟨normalize_components none, rfl⟩
        | str s => exact ⟨normalize_components (some s), rfl⟩
        | list l => exact ⟨l, rfl⟩
      | false =>
        rcases h with h | h <;> exact absurd h (by decide)

/-- Witness for C7: a legacy-shape row, and a mixed-shape row where the
non-empty `components` list wins. -/
theorem c7_witness :
    load_components true false (some "bearings and brushes") Cell.nullv =
      some (.list (normalize_components (some "bearings and brushes"))) ∧
    ¬ (["Chuck"] : List String) = [] ∧
    load_components true true (some "anvil") (.list ["Chuck"]) = some (.list ["Chuck"]) :=
  ⟨c7_load_components_shapes.1 (some "bearings and brushes") Cell.nullv, by decide,
    c7_load_components_shapes.2.2.1 (some "anvil") ["Chuck"] (by decide)⟩

/-- C5 counterexample: a collection holding one record with null `tool_type`
produces an empty count table — pandas `value_counts` drops nulls by default,
so no null bucket appears even though a null record is present. -/
theorem c5_counterexample :
    get_tool_type_counts
      [{ brand := some "DeWalt", tool_type := none, successful := some true,
         failure_reason := none }] = [] ∧
    ({ brand := some "DeWalt", tool_type := none, successful := some true,
       failure_reason := none } : Record).tool_type = none := by decide

/-- C5 amended: `get_tool_type_counts` reports the frequency of every non-null
`tool_type` value (an entry appears exactly for positive counts, with the
exact frequency), and records whose `tool_type` is null are excluded — no
null bucket ever appears. -/
theorem c5_tool_counts_amended :
    ∀ df : List Record,
      (∀ (t : String) (c : Nat),
        ((some t, c) ∈ get_tool_type_counts df) ↔ (countTool df t = c ∧ 0 < c)) ∧
      (∀ p ∈ get_tool_type_counts df, ¬ p.1 = none) := by
  intro df
  constructor
  · intro t c
    unfold get_tool_type_counts
    rw [mem_sortBy, List.mem_map]
    constructor
    · rintro ⟨t', ht', heq⟩
      rw [Prod.mk.injEq] at heq
      obtain ⟨h1, h2⟩ := heq
      have h1' : t' = t := by simpa using h1
      subst h1'
      refine ⟨h2, ?_⟩
      rw [mem_dedupFS] at ht'
      have hmem := ht'.1
      rw [List.mem_filterMap] at hmem
      obtain ⟨r, hr, hrt⟩ := hmem
      rw [← h2]
      exact countTool_pos_iff.mpr ⟨r, hr, hrt⟩
    · rintro ⟨hc, hpos⟩
      refine ⟨t, ?_, by rw [hc]⟩
      rw [mem_dedupFS]
      refine ⟨?_, by simp⟩
      rw [List.mem_filterMap]
      obtain ⟨r, hr, hrt⟩ := countTool_pos_iff.mp (by rw [hc]; exact hpos)
      exact ⟨r, hr, hrt⟩
  · intro p hp
    unfold get_tool_type_counts at hp
    rw [mem_sortBy, List.mem_map] at hp
    obtain ⟨t', _, heq⟩ := hp
    rw [← heq]
    simp

/-- Witness for the amended C5 at a concrete three-record collection. -/
theorem c5_witness :
    (some "Drill", 2) ∈ get_tool_type_counts
      [{ brand := none, tool_type := some "Drill", successful := none, failure_reason := none },
       { brand := none, tool_type := some "Drill", successful := none, failure_reason := none },
       { brand := none, tool_type := some "Saw", successful := none, failure_reason := none }] :=
  ((c5_tool_counts_amended
    [{ brand := none, tool_type := some "Drill", successful := none, failure_reason := none },
     { brand := none, tool_type := some "Drill", successful := none, failure_reason := none },
     { brand := none, tool_type := some "Saw", successful := none, failure_reason := none }]).1
    "Drill" 2).mpr ⟨by decide, by decide⟩

/-- C6: every brand present in the collection gets a row of
`compute_brand_stats` whose `total_repairs` counts all of that brand's records
(pending included), and whose `success_rate` is
`successful / (successful + failed) * 100` with pending records excluded,
defined as 0 when the brand has no completed records. -/
theorem c6_brand_stats :
    ∀ (df : List Record) (b : String), (∃ r ∈ df, r.brand = some b) →
      (∃ row ∈ compute_brand_stats df, row.brand = b) ∧
      (∀ row ∈ compute_brand_stats df, row.brand = b →
        row.total_repairs = countBrand df b ∧
        row.successful_repairs = countSucc df b ∧
        row.failed_repairs = countFail df b ∧
        (countSucc df b + countFail df b = 0 → row.success_rate = 0) ∧
        (¬ countSucc df b + countFail df b = 0 →
          row.success_rate = (countSucc df b : ℚ) /
            ((countSucc df b : ℚ) + (countFail df b : ℚ)) * 100)) := by
  intro df b hex
  have hbmem : b ∈ sortBy (fun a b => strLtB a.data b.data)
      (dedupFS (df.filterMap (fun r => r.brand)) []) := by
    rw [mem_sortBy, mem_dedupFS]
    refine ⟨?_, by simp⟩
    rw [List.mem_filterMap]
    obtain ⟨r, hr, hb⟩ := hex
    exact ⟨r, hr, hb⟩
  constructor
  · refine ⟨BrandRow.mk b (countBrand df b) (countSucc df b) (countFail df b)
      (rateOf (countSucc df b) (countFail df b)), ?_, rfl⟩
    simp only [compute_brand_stats]
    rw [mem_sortBy, List.mem_map]
    exact ⟨b, hbmem, rfl⟩
  · intro row hrow hb
    simp only [compute_brand_stats] at hrow
    rw [mem_sortBy, List.mem_map] at hrow
    obtain ⟨b', hb', hmk⟩ := hrow
    have hbb : b' = b := by
      rw [← hmk] at hb
      exact hb
    subst hbb
    rw [← hmk]
    refine ⟨rfl, rfl, rfl, ?_, ?_⟩
    · intro h0
      show rateOf (countSucc df b') (countFail df b') = 0
      rw [rateOf, if_pos h0]
    · intro hne
      show rateOf (countSucc df b') (countFail df b') = _
      rw [rateOf, if_neg hne]

/-- Witness for C6: a brand with 3 successful, 1 failed and 2 pending records
gets `total_repairs = 6` and `success_rate = 75`. -/
theorem c6_witness :
    ∃ row ∈ compute_brand_stats
      [{ brand := some "Makita", tool_type := none, successful := some true, failure_reason := none },
       { brand := some "Makita", tool_type := none, successful := some true, failure_reason := none },
       { brand := some "Makita", tool_type := none, successful := some true, failure_reason := none },
       { brand := some "Makita", tool_type := none, successful := some false, failure_reason := none },
       { brand := some "Makita", tool_type := none, successful := none, failure_reason := none },
       { brand := some "Makita", tool_type := none, successful := none, failure_reason := none }],
      row.brand = "Makita" ∧ row.total_repairs = 6 ∧ row.success_rate = 75 := by
  obtain ⟨⟨row, hrow, hb⟩, hall⟩ := c6_brand_stats
    [{ brand := some "Makita", tool_type := none, successful := some true, failure_reason := none },
     { brand := some "Makita", tool_type := none, successful := some true, failure_reason := none },
     { brand := some "Makita", tool_type := none, successful := some true, failure_reason := none },
     { brand := some "Makita", tool_type := none, successful := some false, failure_reason := none },
     { brand := some "Makita", tool_type := none, successful := none, failure_reason := none },
     { brand := some "Makita", tool_type := none, successful := none, failure_reason := none }]
    "Makita"
    ⟨{ brand := some "Makita", tool_type := none, successful := some true, failure_reason := none },
      by simp, rfl⟩
  obtain ⟨ht, hs, hf, h0, hne⟩ := hall row hrow hb
  refine ⟨row, hrow, hb, ?_, ?_⟩
  · rw [ht]
    decide
  · rw [hne (by decide)]
    have hs3 : countSucc
        [{ brand := some "Makita", tool_type := none, successful := some true, failure_reason := none },
         { brand := some "Makita", tool_type := none, successful := some true, failure_reason := none },
         { brand := some "Makita", tool_type := none, successful := some true, failure_reason := none },
         { brand := some "Makita", tool_type := none, successful := some false, failure_reason := none },
         { brand := some "Makita", tool_type := none, successful := none, failure_reason := none },
         { brand := some "Makita", tool_type := none, successful := none, failure_reason := none }]
        "Makita" = 3 := by decide
    have hf1 : countFail
        [{ brand := some "Makita", tool_type := none, successful := some true, failure_reason := none },
         { brand := some "Makita", tool_type := none, successful := some true, failure_reason := none },
         { brand := some "Makita", tool_type := none, successful := some true, failure_reason := none },
         { brand := some "Makita", tool_type := none, successful := some false, failure_reason := none },
         { brand := some "Makita", tool_type := none, successful := none, failure_reason := none },
         { brand := some "Makita", tool_type := none, successful := none, failure_reason := none }]
        "Makita" = 1 := by decide
    rw [hs3, hf1]
    norm_num

/-- C10: records whose `brand` is null are silently excluded from per-brand
aggregation — filtering them out first changes neither the output of
`compute_brand_stats` nor the `get_brand_tool_matrix` contingency table,
because the grouping keys drop missing values. -/
theorem c10_null_brand_excluded :
    ∀ df : List Record,
      compute_brand_stats (df.filter (fun r => r.brand.isSome)) = compute_brand_stats df ∧
      get_brand_tool_matrix (df.filter (fun r => r.brand.isSome)) = get_brand_tool_matrix df := by
  intro df
  constructor
  · simp only [compute_brand_stats]
    rw [filterMap_brand_filter]
    apply congrArg
    apply List.map_congr_left
    intro b hbmem
    rw [countBrand_filter, countSucc_filter, countFail_filter]
  · simp only [get_brand_tool_matrix]
    have hkept : (df.filter (fun r => r.brand.isSome)).filter
        (fun r => r.brand.isSome && r.tool_type.isSome) =
        df.filter (fun r => r.brand.isSome && r.tool_type.isSome) := by
      apply filter_brandSome
      intro r h
      rw [Bool.and_eq_true] at h
      exact h.1
    rw [hkept]
